import Mathlib

/-!
Verification of the `jcirclebuffer` circular byte buffer (`src/lib.rs`).

The buffer is a struct `CircleBuffer<T>` holding an unmoving backing byte
region `buf`, a `start` offset and an occupied length `len`.  We embed the
byte region as `List Nat`.  Rust panics (failed `unwrap`, failed `assert!`,
out-of-bounds slicing, `% 0`) are modelled as `Option.none`; Rust slices
`buf[a..b]` are modelled as `(buf.drop a).take (b - a)`.
-/

namespace JCircle

/-- Struct `CircleBuffer<T>` with the byte region `T` modelled as `List Nat`. -/
structure CircleBuffer where
  start : Nat
  len : Nat
  buf : List Nat
deriving DecidableEq

/-- Constructor `CircleBuffer::new`: `start` and `len` begin at 0. -/
def CircleBuffer.new (buf : List Nat) : CircleBuffer := ⟨0, 0, buf⟩

/-- Method `size()`: length of the backing buffer (the capacity). -/
def size (b : CircleBuffer) : Nat := b.buf.length

/-- Method `available()`: `size() - len()`, the free space. -/
def available (b : CircleBuffer) : Nat := size b - b.len

/-- Method `is_empty()`: `len() == 0`. -/
def is_empty (b : CircleBuffer) : Prop := b.len = 0

instance (b : CircleBuffer) : Decidable (is_empty b) :=
  inferInstanceAs (Decidable (b.len = 0))

/-- Method `is_full()`: `len() == size()`. -/
def is_full (b : CircleBuffer) : Prop := b.len = size b

instance (b : CircleBuffer) : Decidable (is_full b) :=
  inferInstanceAs (Decidable (b.len = size b))

/-- Method `fill(amt)`: `len += amt` then `assert!(len <= size)`.
A failed assert (or `checked_add`) is a panic, modelled as `none`. -/
def fill (b : CircleBuffer) (amt : Nat) : Option CircleBuffer :=
  let len' := b.len + amt
  if len' ≤ size b then some { b with len := len' } else none

/-- Method `consume(amt)`: `len -= amt` (panics if `amt > len`); then
either resets `start` to 0 (buffer became empty) or advances it by `amt`
modulo `size()` (a `% 0` is a Rust panic, modelled as `none`). -/
def consume (b : CircleBuffer) (amt : Nat) : Option CircleBuffer :=
  if amt ≤ b.len then
    let len' := b.len - amt
    if len' = 0 then some { b with len := 0, start := 0 }
    else if size b = 0 then none
    else some { b with len := len', start := (b.start + amt) % size b }
  else none

/-- Method `clear()`: `len = 0; start = 0`, the backing buffer untouched. -/
def clear (b : CircleBuffer) : CircleBuffer := { b with len := 0, start := 0 }

/-- Method `view_parts(amt)`: asserts `amt <= len`; with
`view_end = start + amt`, returns `(buf[start..view_end], [])` when
`view_end <= size()`, and otherwise splits at `start` and at
`view_end % size()`, returning `(buf[start..], buf[..start][..view_end % size])`.
The guards in the wrap branch model the Rust panics of `% 0` and of
`split_at` called past the end of its slice. -/
def view_parts (b : CircleBuffer) (amt : Nat) : Option (List Nat × List Nat) :=
  if amt ≤ b.len then
    let view_end := b.start + amt
    if view_end ≤ size b then
      some ((b.buf.drop b.start).take amt, ([] : List Nat))
    else if size b ≠ 0 ∧ b.start ≤ size b ∧ view_end % size b ≤ b.start then
      some (b.buf.drop b.start, (b.buf.take b.start).take (view_end % size b))
    else none
  else none

/-- Method `get_fillable_area()`: returns `None` when full; otherwise with
`e = (start + len) % size()` returns the index range `[e, start)` when
`e < start` and `[e, size)` otherwise.  The extra guards model the Rust
panics of `% 0` and of slicing `buf[e..start]` with `start` out of bounds. -/
def get_fillable_area (b : CircleBuffer) : Option (Nat × Nat) :=
  if b.len = size b then none
  else if size b = 0 then none
  else
    let e := (b.start + b.len) % size b
    if e < b.start then
      if b.start ≤ size b then some (e, b.start) else none
    else some (e, size b)

/-- Overwrites `l[off .. off + d.length]` with `d`: the effect of Rust
`copy_from_slice` into the subslice of `l` at offset `off`. -/
def writeAt (l : List Nat) (off : Nat) (d : List Nat) : List Nat :=
  l.take off ++ d ++ l.drop (off + d.length)

/-- Second round of `extend(data)`: `rest` is `data[head_amt..]`, so
`rest.length` is the source's `remainder`.  The `unwrap` on a full buffer
and the out-of-bounds subslice `tail[..remainder]` are panics. -/
def extend_tail (b1 : CircleBuffer) (rest : List Nat) : Option CircleBuffer :=
  match get_fillable_area b1 with
  | none => none
  | some (lo2, hi2) =>
    if rest.length ≤ hi2 - lo2 then
      fill { b1 with buf := writeAt b1.buf lo2 rest } rest.length
    else none

/-- Method `extend(data)`: copies `data` through one or two rounds of
`get_fillable_area` / `copy_from_slice` / `fill`.  The `unwrap` on a full
buffer is a panic. -/
def extend (b : CircleBuffer) (data : List Nat) : Option CircleBuffer :=
  match get_fillable_area b with
  | none => none
  | some (lo, hi) =>
    let head_amt := min data.length (hi - lo)
    match fill { b with buf := writeAt b.buf lo (data.take head_amt) } head_amt with
    | none => none
    | some b1 =>
      if head_amt = data.length then some b1
      else extend_tail b1 (data.drop head_amt)

/-- Method `read(reader)`: gets the fillable area (the `expect` on a full
buffer is a panic), lets the reader write into that zone and report a
result, commits the zone bytes, and calls `fill(amt)` only on `Ok(amt)`.
A reader is a function from the zone's current bytes to an
`io::Result<usize>` together with the zone's new bytes. -/
def read (b : CircleBuffer) (reader : List Nat → Except Nat Nat × List Nat) :
    Option (Except Nat Nat × CircleBuffer) :=
  match get_fillable_area b with
  | none => none
  | some (lo, hi) =>
    let r := reader ((b.buf.drop lo).take (hi - lo))
    let b' := { b with buf := writeAt b.buf lo r.2 }
    match r.1 with
    | Except.ok amt => (fill b' amt).map (fun b2 => (Except.ok amt, b2))
    | Except.error e => some (Except.error e, b')

/-- Method `std::io::Write::write(data)`: errors when `available() == 0`,
otherwise extends by the first `min(data.len(), available())` bytes and
returns that count. -/
def write (b : CircleBuffer) (data : List Nat) :
    Option (Except Unit Nat × CircleBuffer) :=
  if available b = 0 then some (Except.error (), b)
  else
    let amt := min data.length (available b)
    (extend b (data.take amt)).map (fun b' => (Except.ok amt, b'))

/-- Modelled from the spec (§3, "occupied region"): the occupied bytes in
logical order, `[start, start+len)` modulo the capacity — a head slice up
to the wrap point followed by the wrapped tail.  Used as the reference
value that `view_parts` and `extend` are compared against. -/
def occupied (b : CircleBuffer) : List Nat :=
  (b.buf.drop b.start).take b.len ++ b.buf.take (b.start + b.len - size b)

/-- Invariants of the spec (§3): I1 `len ≤ size`, I2 the canonical empty
state `len = 0 → start = 0`, and `start < size` whenever the buffer is
nonempty. -/
def Inv (b : CircleBuffer) : Prop :=
  b.len ≤ size b ∧ (b.len = 0 → b.start = 0) ∧ (0 < b.len → b.start < size b)

instance (b : CircleBuffer) : Decidable (Inv b) :=
  inferInstanceAs (Decidable (_ ∧ _ ∧ _))

/-- States reachable from a freshly constructed buffer by the public
mutating operations (the view operations take `&self` and do not change
the state).  A `read` step may use any reader that, like a Rust
`Read::read` writing through `&mut [u8]`, preserves the zone's length. -/
inductive Reachable : CircleBuffer → Prop where
  | new (buf : List Nat) : Reachable (CircleBuffer.new buf)
  | step_fill {b b' : CircleBuffer} {amt : Nat} :
      Reachable b → fill b amt = some b' → Reachable b'
  | step_consume {b b' : CircleBuffer} {amt : Nat} :
      Reachable b → consume b amt = some b' → Reachable b'
  | step_clear {b : CircleBuffer} : Reachable b → Reachable (clear b)
  | step_extend {b b' : CircleBuffer} {data : List Nat} :
      Reachable b → extend b data = some b' → Reachable b'
  | step_read {b b' : CircleBuffer} {res : Except Nat Nat}
      {reader : List Nat → Except Nat Nat × List Nat} :
      Reachable b → (∀ z, ((reader z).2).length = z.length) →
      read b reader = some (res, b') → Reachable b'
  | step_write {b b' : CircleBuffer} {res : Except Unit Nat} {data : List Nat} :
      Reachable b → write b data = some (res, b') → Reachable b'

/-! ### Arithmetic and list helper lemmas -/

theorem mod_eq_sub_of_lt_two {a n : Nat} (h1 : n ≤ a) (h2 : a < 2 * n) : a % n = a - n := by
  rw [Nat.mod_eq_sub_mod h1]
  exact Nat.mod_eq_of_lt (by omega)

theorem length_writeAt {l d : List Nat} {off : Nat} (h : off + d.length ≤ l.length) :
    (writeAt l off d).length = l.length := by
  simp only [writeAt, List.length_append, List.length_take, List.length_drop]
  omega

theorem take_writeAt {l d : List Nat} {off k : Nat} (h : off + d.length ≤ l.length)
    (hk : k ≤ off) : (writeAt l off d).take k = l.take k := by
  simp only [writeAt, List.take_append_eq_append_take, List.take_take,
    List.length_take, List.length_append]
  have h1 : min k off = k := by omega
  have h2 : k - min off l.length = 0 := by omega
  have h3 : k - (min off l.length + d.length) = 0 := by omega
  simp [h1, h2, h3]

theorem drop_writeAt {l d : List Nat} {off k : Nat} (h : off + d.length ≤ l.length)
    (hk : off + d.length ≤ k) : (writeAt l off d).drop k = l.drop k := by
  simp only [writeAt, List.drop_append_eq_append_drop, List.length_take,
    List.length_append, List.drop_drop]
  have h1 : min off l.length = off := by omega
  rw [h1]
  have h2 : (l.take off).drop k = [] := by
    apply List.drop_eq_nil_of_le
    simp only [List.length_take]
    omega
  have h3 : d.drop (k - off) = [] := List.drop_eq_nil_of_le (by omega)
  rw [h2, h3]
  simp only [List.nil_append]
  congr 1
  omega

theorem take_writeAt_full {l d : List Nat} {off : Nat} (h : off + d.length ≤ l.length) :
    (writeAt l off d).take (off + d.length) = l.take off ++ d := by
  simp only [writeAt, List.take_append_eq_append_take, List.take_take,
    List.length_take, List.length_append]
  have h1 : min (off + d.length) off = off := by omega
  have h2 : min off l.length = off := by omega
  have h3 : off + d.length - off = d.length := by omega
  have h4 : off + d.length - (off + d.length) = 0 := by omega
  simp [h1, h2, h3, h4]

theorem drop_writeAt_le {l d : List Nat} {off k : Nat} (h : off + d.length ≤ l.length)
    (hk : k ≤ off) :
    (writeAt l off d).drop k = (l.drop k).take (off - k) ++ d ++ l.drop (off + d.length) := by
  simp only [writeAt, List.drop_append_eq_append_drop, List.length_take,
    List.length_append, List.drop_take]
  have h1 : min off l.length = off := by omega
  rw [h1]
  have h2 : k - off = 0 := by omega
  have h3 : k - (off + d.length) = 0 := by omega
  simp [h2, h3]

/-! ### Characterization of `get_fillable_area` -/

theorem gfa_nowrap {b : CircleBuffer} (h : b.start + b.len < size b) :
    get_fillable_area b = some (b.start + b.len, size b) := by
  have hL : 0 < size b := by omega
  have hlen : b.len ≠ size b := by omega
  have he : (b.start + b.len) % size b = b.start + b.len := Nat.mod_eq_of_lt h
  simp only [get_fillable_area, hlen, if_false, Nat.pos_iff_ne_zero.mp hL, if_neg, he]
  have : ¬ (b.start + b.len < b.start) := by omega
  simp [this, hL.ne']

theorem gfa_wrap {b : CircleBuffer} (hs : b.start < size b) (h : size b ≤ b.start + b.len)
    (hf : b.len < size b) :
    get_fillable_area b = some (b.start + b.len - size b, b.start) := by
  have hL : 0 < size b := by omega
  have hlen : b.len ≠ size b := by omega
  have he : (b.start + b.len) % size b = b.start + b.len - size b :=
    mod_eq_sub_of_lt_two h (by omega)
  simp only [get_fillable_area, hlen, if_false, he]
  have hlt : b.start + b.len - size b < b.start := by omega
  have hsle : b.start ≤ size b := by omega
  simp [hlt, hL.ne', hsle]

theorem gfa_cases {b : CircleBuffer} (hInv : Inv b) (hf : b.len < size b) :
    (b.start + b.len < size b ∧ get_fillable_area b = some (b.start + b.len, size b)) ∨
    (size b ≤ b.start + b.len ∧ 0 < b.start ∧ b.start < size b ∧
      get_fillable_area b = some (b.start + b.len - size b, b.start)) := by
  obtain ⟨h1, h2, h3⟩ := hInv
  by_cases hc : b.start + b.len < size b
  · exact Or.inl ⟨hc, gfa_nowrap hc⟩
  · have hlpos : 0 < b.len := by
      by_contra hl
      have : b.len = 0 := by omega
      have := h2 this
      omega
    have hs : b.start < size b := h3 hlpos
    exact Or.inr ⟨by omega, by omega, hs, gfa_wrap hs (by omega) hf⟩

theorem gfa_none_iff {b : CircleBuffer} (hInv : Inv b) :
    get_fillable_area b = none ↔ b.len = size b := by
  constructor
  · intro h
    by_contra hne
    have hf : b.len < size b := by
      have := hInv.1
      omega
    rcases gfa_cases hInv hf with ⟨_, heq⟩ | ⟨_, _, _, heq⟩ <;> rw [heq] at h <;> exact Option.noConfusion h
  · intro h
    simp [get_fillable_area, h]

theorem gfa_bounds {b : CircleBuffer} (hInv : Inv b) {lo hi : Nat}
    (h : get_fillable_area b = some (lo, hi)) :
    lo < hi ∧ hi ≤ size b ∧ b.len < size b := by
  have hf : b.len < size b := by
    rcases Nat.lt_or_ge b.len (size b) with hc | hc
    · exact hc
    · have : b.len = size b := by have := hInv.1; omega
      rw [(gfa_none_iff hInv).mpr this] at h
      exact Option.noConfusion h
  rcases gfa_cases hInv hf with ⟨hc, heq⟩ | ⟨hc, hs0, hs, heq⟩ <;>
    rw [heq] at h <;> injection h with h' <;>
    injection h' with hlo hhi <;> subst hlo <;> subst hhi
  · exact ⟨hc, Nat.le_refl _, hf⟩
  · exact ⟨by omega, by omega, hf⟩

/-! ### Invariant preservation for the cursor operations -/

theorem inv_new (buf : List Nat) : Inv (CircleBuffer.new buf) := by
  simp [Inv, CircleBuffer.new]

theorem fill_eq_some {b b' : CircleBuffer} {amt : Nat} (h : fill b amt = some b') :
    b.len + amt ≤ size b ∧ b' = { b with len := b.len + amt } := by
  simp only [fill] at h
  split at h
  next hle => exact ⟨hle, (Option.some.injEq _ _ ▸ h).symm⟩
  next => exact Option.noConfusion h

theorem fill_eq_none {b : CircleBuffer} {amt : Nat} (h : size b < b.len + amt) :
    fill b amt = none := by
  simp only [fill]
  split
  next hle => omega
  next => rfl

theorem inv_fill {b b' : CircleBuffer} {amt : Nat} (hInv : Inv b) (h : fill b amt = some b') :
    Inv b' := by
  obtain ⟨h1, h2, h3⟩ := hInv
  obtain ⟨hle, rfl⟩ := fill_eq_some h
  simp only [size] at h1 h3 hle
  refine ⟨?_, ?_, ?_⟩
  · show b.len + amt ≤ b.buf.length
    exact hle
  · intro h0
    have h0' : b.len + amt = 0 := h0
    show b.start = 0
    exact h2 (by omega)
  · intro hp
    have hp' : 0 < b.len + amt := hp
    show b.start < b.buf.length
    by_cases hl : 0 < b.len
    · exact h3 hl
    · have hs0 : b.start = 0 := h2 (by omega)
      omega

theorem consume_eq_some {b : CircleBuffer} {amt : Nat} (hInv : Inv b) (hle : amt ≤ b.len) :
    consume b amt = some
      { b with
          len := b.len - amt,
          start := (if b.len - amt = 0 then 0 else (b.start + amt) % size b) } := by
  obtain ⟨h1, h2, h3⟩ := hInv
  simp only [consume, hle, if_true]
  by_cases hz : b.len - amt = 0
  · simp [hz]
  · have hL : size b ≠ 0 := by
      have hs : b.start < size b := h3 (by omega)
      omega
    simp [hz, hL]

theorem consume_eq_none {b : CircleBuffer} {amt : Nat} (h : b.len < amt) :
    consume b amt = none := by
  simp only [consume]
  split
  next hle => omega
  next => rfl

theorem inv_consume {b b' : CircleBuffer} {amt : Nat} (hInv : Inv b)
    (h : consume b amt = some b') : Inv b' := by
  obtain ⟨h1, h2, h3⟩ := hInv
  have hle : amt ≤ b.len := by
    by_contra hgt
    rw [consume_eq_none (by omega)] at h
    exact Option.noConfusion h
  rw [consume_eq_some ⟨h1, h2, h3⟩ hle] at h
  injection h with h
  subst h
  simp only [size] at h1 h3
  by_cases hz : b.len - amt = 0
  · refine ⟨?_, ?_, ?_⟩
    · show b.len - amt ≤ b.buf.length
      omega
    · intro _
      show (if b.len - amt = 0 then 0 else (b.start + amt) % size b) = 0
      simp [hz]
    · intro hp
      have hp' : 0 < b.len - amt := hp
      exact absurd hp' (by omega)
  · have hL : 0 < b.buf.length := by
      have hs := h3 (by omega)
      omega
    refine ⟨?_, ?_, ?_⟩
    · show b.len - amt ≤ b.buf.length
      omega
    · intro h0
      have h0' : b.len - amt = 0 := h0
      exact absurd h0' hz
    · intro _
      show (if b.len - amt = 0 then 0 else (b.start + amt) % size b) < b.buf.length
      rw [if_neg hz]
      exact Nat.mod_lt _ hL

theorem inv_clear (b : CircleBuffer) : Inv (clear b) := by
  simp [Inv, clear]

/-! ### The logical occupied contents -/

theorem occupied_length {b : CircleBuffer} (hInv : Inv b) : (occupied b).length = b.len := by
  obtain ⟨h1, h2, h3⟩ := hInv
  simp only [size] at h1 h3
  simp only [occupied, List.length_append, List.length_take, List.length_drop, size]
  by_cases hl : 0 < b.len
  · have := h3 hl
    omega
  · have := h2 (by omega)
    omega

/-! ### Characterization of `view_parts` -/

theorem view_parts_none {b : CircleBuffer} {amt : Nat} (h : b.len < amt) :
    view_parts b amt = none := by
  simp only [view_parts]
  split
  next hle => omega
  next => rfl

theorem view_parts_concat {b : CircleBuffer} {amt : Nat} (hInv : Inv b) (hamt : amt ≤ b.len) :
    ∃ h t, view_parts b amt = some (h, t) ∧ h ++ t = (occupied b).take amt ∧
      (t = [] ↔ b.start + amt ≤ size b) := by
  obtain ⟨h1, h2, h3⟩ := hInv
  simp only [size] at h1 h3
  by_cases hw : b.start + amt ≤ b.buf.length
  · refine ⟨(b.buf.drop b.start).take amt, [], ?_, ?_, by simp [size, hw]⟩
    · simp [view_parts, hamt, size, hw]
    · rw [occupied, List.take_append_eq_append_take]
      have hA : ((b.buf.drop b.start).take b.len).take amt = (b.buf.drop b.start).take amt := by
        rw [List.take_take]
        congr 1
        omega
      have hAlen : amt - ((b.buf.drop b.start).take b.len).length = 0 := by
        simp only [List.length_take, List.length_drop]
        omega
      rw [hA, hAlen]
      simp
  · have hlpos : 0 < b.len := by
      by_contra hl
      have h0 : b.len = 0 := by omega
      have := h2 h0
      omega
    have hs : b.start < b.buf.length := h3 hlpos
    have hL : 0 < b.buf.length := by omega
    have hmod : (b.start + amt) % b.buf.length = b.start + amt - b.buf.length :=
      mod_eq_sub_of_lt_two (by omega) (by omega)
    refine ⟨b.buf.drop b.start, (b.buf.take b.start).take (b.start + amt - b.buf.length),
      ?_, ?_, ?_⟩
    · have hg : b.buf.length ≠ 0 ∧ b.start ≤ b.buf.length ∧
          (b.start + amt) % b.buf.length ≤ b.start := by
        refine ⟨by omega, by omega, ?_⟩
        rw [hmod]
        omega
      simp only [view_parts, hamt, if_true, size]
      rw [if_neg (by omega), if_pos hg, hmod]
    · have ht : (b.buf.take b.start).take (b.start + amt - b.buf.length) =
          b.buf.take (b.start + amt - b.buf.length) := by
        rw [List.take_take]
        congr 1
        omega
      rw [ht, occupied, List.take_append_eq_append_take]
      have hA : ((b.buf.drop b.start).take b.len).take amt =
          (b.buf.drop b.start).take b.len := by
        apply List.take_of_length_le
        simp only [List.length_take, List.length_drop]
        omega
      have hA2 : (b.buf.drop b.start).take b.len = b.buf.drop b.start := by
        apply List.take_of_length_le
        simp only [List.length_drop]
        omega
      rw [hA, hA2]
      have hB : (b.buf.take (b.start + b.len - size b)).take
          (amt - (b.buf.drop b.start).length) =
          b.buf.take (b.start + amt - b.buf.length) := by
        rw [List.take_take]
        congr 1
        simp only [List.length_take, List.length_drop, size]
        omega
      rw [hB]
    · constructor
      · intro ht
        have := congrArg List.length ht
        simp only [List.length_take, List.length_nil] at this
        omega
      · intro hc
        simp only [size] at hc
        omega

/-! ### Helper lemmas for `extend` -/

theorem take_append_exact {A B : List Nat} {n : Nat} (h : A.length = n) :
    (A ++ B).take n = A := by
  subst h
  rw [List.take_append_of_le_length (Nat.le_refl _)]
  exact List.take_length A

theorem take_append_add {A B : List Nat} {n m : Nat} (h : A.length = n) :
    (A ++ B).take (n + m) = A ++ B.take m := by
  subst h
  rw [List.take_append_eq_append_take]
  congr 1
  · exact List.take_of_length_le (by omega)
  · congr 1
    omega

theorem fill_of_le {b : CircleBuffer} {amt : Nat} (h : b.len + amt ≤ size b) :
    fill b amt = some { b with len := b.len + amt } := by
  simp [fill, h]

theorem extend_tail_none_full {b1 : CircleBuffer} {rest : List Nat}
    (h : b1.len = size b1) : extend_tail b1 rest = none := by
  unfold extend_tail
  rw [(by simp [get_fillable_area, h] : get_fillable_area b1 = none)]

theorem extend_tail_gfa {b1 : CircleBuffer} (hInv1 : Inv b1)
    (hfullspan : b1.start + b1.len = size b1) (hs : 0 < b1.start) :
    get_fillable_area b1 = some (0, b1.start) := by
  obtain ⟨h1, h2, h3⟩ := hInv1
  have hl1 : 0 < b1.len := by
    by_contra hl
    have h0 := h2 (by omega)
    omega
  have hs1 : b1.start < size b1 := h3 hl1
  have := gfa_wrap hs1 (by omega) (by omega)
  rw [this]
  congr 2
  omega

theorem extend_tail_spec {b1 : CircleBuffer} {rest : List Nat} (hInv1 : Inv b1)
    (hfullspan : b1.start + b1.len = size b1) (hs : 0 < b1.start)
    (hrest : rest.length ≤ b1.start) :
    extend_tail b1 rest = some
      { b1 with len := b1.len + rest.length, buf := writeAt b1.buf 0 rest } := by
  unfold extend_tail
  rw [extend_tail_gfa hInv1 hfullspan hs]
  have hW : (writeAt b1.buf 0 rest).length = b1.buf.length :=
    length_writeAt (by simp only [size] at hfullspan; omega)
  have hfill : b1.len + rest.length ≤ (writeAt b1.buf 0 rest).length := by
    simp only [size] at hfullspan
    omega
  simp only [Nat.sub_zero, hrest, if_true]
  exact fill_of_le hfill

theorem extend_tail_none_of_gt {b1 : CircleBuffer} {rest : List Nat} (hInv1 : Inv b1)
    (hfullspan : b1.start + b1.len = size b1) (hs : 0 < b1.start)
    (hrest : b1.start < rest.length) : extend_tail b1 rest = none := by
  unfold extend_tail
  rw [extend_tail_gfa hInv1 hfullspan hs]
  simp only [Nat.sub_zero]
  rw [if_neg (by omega)]

theorem extend_spec {b : CircleBuffer} {data : List Nat} (hInv : Inv b)
    (hle : data.length ≤ available b) (hnf : b.len < size b) :
    ∃ b', extend b data = some b' ∧ b'.start = b.start ∧ b'.len = b.len + data.length ∧
      b'.buf.length = b.buf.length ∧ occupied b' = occupied b ++ data := by
  obtain ⟨h1, h2, h3⟩ := hInv
  have hLen : size b = b.buf.length := rfl
  have hle' : data.length ≤ size b - b.len := hle
  rcases gfa_cases ⟨h1, h2, h3⟩ hnf with ⟨hc, heq⟩ | ⟨hc, hs0, hs, heq⟩
  · -- free space reaches from start+len towards the end of the buffer
    by_cases hone : data.length ≤ size b - (b.start + b.len)
    · -- one round suffices
      have hmin : min data.length (size b - (b.start + b.len)) = data.length := by omega
      have hWlen : (writeAt b.buf (b.start + b.len) data).length = b.buf.length :=
        length_writeAt (by omega)
      refine ⟨⟨b.start, b.len + data.length, writeAt b.buf (b.start + b.len) data⟩,
        ?_, rfl, rfl, hWlen, ?_⟩
      · unfold extend
        rw [heq]
        dsimp only
        rw [hmin, List.take_length]
        rw [fill_of_le (by
          show b.len + data.length ≤ (writeAt b.buf (b.start + b.len) data).length
          omega)]
        simp
      · show occupied _ = occupied b ++ data
        simp only [occupied, size, hWlen]
        have hz1 : b.start + (b.len + data.length) - b.buf.length = 0 := by omega
        have hz2 : b.start + b.len - b.buf.length = 0 := by omega
        rw [hz1, hz2, List.take_zero, List.take_zero]
        rw [drop_writeAt_le (by omega) (by omega), Nat.add_sub_cancel_left]
        rw [take_append_exact (by
          simp only [List.length_append, List.length_take, List.length_drop]
          omega)]
        simp
    · -- the head span is filled completely, then a second wrapped round
      have hs0' : 0 < b.start := by omega
      have hmin : min data.length (size b - (b.start + b.len)) =
          size b - (b.start + b.len) := by omega
      have htklen : (data.take (size b - (b.start + b.len))).length =
          size b - (b.start + b.len) := by
        simp only [List.length_take]
        omega
      have hRlen : (data.drop (size b - (b.start + b.len))).length =
          data.length - (size b - (b.start + b.len)) := List.length_drop _ _
      have hW1len : (writeAt b.buf (b.start + b.len)
          (data.take (size b - (b.start + b.len)))).length = b.buf.length := by
        apply length_writeAt
        rw [htklen]
        omega
      have hW2len : (writeAt (writeAt b.buf (b.start + b.len)
          (data.take (size b - (b.start + b.len)))) 0
          (data.drop (size b - (b.start + b.len)))).length = b.buf.length := by
        rw [length_writeAt (by rw [hW1len, hRlen]; omega)]
        exact hW1len
      have hszb1 : size ⟨b.start, b.len + (size b - (b.start + b.len)),
          writeAt b.buf (b.start + b.len) (data.take (size b - (b.start + b.len)))⟩ =
          b.buf.length := hW1len
      have hInv1 : Inv ⟨b.start, b.len + (size b - (b.start + b.len)),
          writeAt b.buf (b.start + b.len) (data.take (size b - (b.start + b.len)))⟩ := by
        refine ⟨?_, ?_, ?_⟩
        · rw [hszb1]
          dsimp only
          omega
        · intro h0
          dsimp only at h0 ⊢
          omega
        · intro _
          rw [hszb1]
          dsimp only
          omega
      refine ⟨⟨b.start, b.len + (size b - (b.start + b.len)) +
          (data.drop (size b - (b.start + b.len))).length,
          writeAt (writeAt b.buf (b.start + b.len)
            (data.take (size b - (b.start + b.len)))) 0
            (data.drop (size b - (b.start + b.len)))⟩, ?_, rfl, ?_, hW2len, ?_⟩
      · unfold extend
        rw [heq]
        dsimp only
        rw [hmin]
        rw [fill_of_le (by
          show b.len + (size b - (b.start + b.len)) ≤ (writeAt b.buf (b.start + b.len)
            (data.take (size b - (b.start + b.len)))).length
          rw [hW1len]
          omega)]
        dsimp only
        rw [if_neg (by omega)]
        rw [extend_tail_spec hInv1 (by rw [hszb1]; dsimp only; omega) hs0'
          (by dsimp only; rw [hRlen]; omega)]
      · show b.len + (size b - (b.start + b.len)) +
            (data.drop (size b - (b.start + b.len))).length = b.len + data.length
        rw [hRlen]
        omega
      · have hsizeC : size ⟨b.start, b.len + (size b - (b.start + b.len)) +
            (data.drop (size b - (b.start + b.len))).length,
            writeAt (writeAt b.buf (b.start + b.len)
              (data.take (size b - (b.start + b.len)))) 0
              (data.drop (size b - (b.start + b.len)))⟩ = b.buf.length := hW2len
        simp only [occupied, hsizeC]
        have hz2 : b.start + b.len - size b = 0 := by omega
        rw [hz2]
        have hidx : b.start + (b.len + (size b - (b.start + b.len)) +
            (data.drop (size b - (b.start + b.len))).length) - b.buf.length =
            (data.drop (size b - (b.start + b.len))).length := by omega
        rw [hidx]
        rw [drop_writeAt (by rw [hW1len, hRlen]; omega) (by rw [hRlen]; omega)]
        rw [drop_writeAt_le (by rw [htklen]; omega) (by omega)]
        rw [Nat.add_sub_cancel_left]
        have hdnil : b.buf.drop (b.start + b.len +
            (data.take (size b - (b.start + b.len))).length) = [] :=
          List.drop_eq_nil_of_le (by rw [htklen]; omega)
        rw [hdnil]
        simp only [List.append_nil]
        have htake : ((b.buf.drop b.start).take b.len ++
            data.take (size b - (b.start + b.len))).take
            (b.len + (size b - (b.start + b.len)) +
              (data.drop (size b - (b.start + b.len))).length) =
            (b.buf.drop b.start).take b.len ++
              data.take (size b - (b.start + b.len)) :=
          List.take_of_length_le (by
            simp only [List.length_append, List.length_take, List.length_drop]
            omega)
        rw [htake]
        have htk2 : (writeAt (writeAt b.buf (b.start + b.len)
            (data.take (size b - (b.start + b.len)))) 0
            (data.drop (size b - (b.start + b.len)))).take
            ((data.drop (size b - (b.start + b.len))).length) =
            data.drop (size b - (b.start + b.len)) := by
          simp only [writeAt, List.take_zero, List.nil_append, Nat.zero_add]
          exact take_append_exact rfl
        rw [htk2]
        simp only [List.take_zero, List.append_nil, List.append_assoc,
          List.take_append_drop]
  · -- free space is the single wrapped span [start+len-size, start)
    have hmin : min data.length (b.start - (b.start + b.len - size b)) = data.length := by
      omega
    have hWlen : (writeAt b.buf (b.start + b.len - size b) data).length = b.buf.length :=
      length_writeAt (by omega)
    refine ⟨⟨b.start, b.len + data.length, writeAt b.buf (b.start + b.len - size b) data⟩,
      ?_, rfl, rfl, hWlen, ?_⟩
    · unfold extend
      rw [heq]
      dsimp only
      rw [hmin, List.take_length]
      rw [fill_of_le (by
        show b.len + data.length ≤ (writeAt b.buf (b.start + b.len - size b) data).length
        omega)]
      simp
    · have hsizeC : size ⟨b.start, b.len + data.length,
          writeAt b.buf (b.start + b.len - size b) data⟩ = b.buf.length := hWlen
      simp only [occupied, hsizeC]
      have hz1 : b.start + (b.len + data.length) - b.buf.length =
          b.start + b.len - size b + data.length := by omega
      rw [hz1, take_writeAt_full (by omega)]
      rw [drop_writeAt (by omega) (by omega)]
      have hfull1 : (b.buf.drop b.start).take (b.len + data.length) = b.buf.drop b.start :=
        List.take_of_length_le (by simp only [List.length_drop]; omega)
      have hfull2 : (b.buf.drop b.start).take b.len = b.buf.drop b.start :=
        List.take_of_length_le (by simp only [List.length_drop]; omega)
      rw [hfull1, hfull2, List.append_assoc]

theorem extend_none_full {b : CircleBuffer} {data : List Nat} (h : b.len = size b) :
    extend b data = none := by
  unfold extend
  rw [show get_fillable_area b = none by simp [get_fillable_area, h]]

theorem extend_none_of_gt {b : CircleBuffer} {data : List Nat} (hInv : Inv b)
    (h : available b < data.length) : extend b data = none := by
  obtain ⟨h1, h2, h3⟩ := hInv
  have hLen : size b = b.buf.length := rfl
  have hav : available b = size b - b.len := rfl
  rw [hav] at h
  rcases Nat.lt_or_ge b.len (size b) with hnf | hfull
  swap
  · exact extend_none_full (by omega)
  rcases gfa_cases ⟨h1, h2, h3⟩ hnf with ⟨hc, heq⟩ | ⟨hc, hs0, hs, heq⟩
  · -- head span [start+len, size); it is too small, so a second round is attempted
    have hmin : min data.length (size b - (b.start + b.len)) =
        size b - (b.start + b.len) := by omega
    have htklen : (data.take (size b - (b.start + b.len))).length =
        size b - (b.start + b.len) := by
      simp only [List.length_take]
      omega
    have hRlen : (data.drop (size b - (b.start + b.len))).length =
        data.length - (size b - (b.start + b.len)) := List.length_drop _ _
    have hW1len : (writeAt b.buf (b.start + b.len)
        (data.take (size b - (b.start + b.len)))).length = b.buf.length := by
      apply length_writeAt
      rw [htklen]
      omega
    have hszb1 : size ⟨b.start, b.len + (size b - (b.start + b.len)),
        writeAt b.buf (b.start + b.len) (data.take (size b - (b.start + b.len)))⟩ =
        b.buf.length := hW1len
    unfold extend
    rw [heq]
    dsimp only
    rw [hmin]
    rw [fill_of_le (by
      show b.len + (size b - (b.start + b.len)) ≤ (writeAt b.buf (b.start + b.len)
        (data.take (size b - (b.start + b.len)))).length
      rw [hW1len]
      omega)]
    dsimp only
    rw [if_neg (by omega)]
    by_cases hs0 : b.start = 0
    · -- after the first round the buffer is full
      have hb1full : (⟨b.start, b.len + (size b - (b.start + b.len)),
          writeAt b.buf (b.start + b.len)
            (data.take (size b - (b.start + b.len)))⟩ : CircleBuffer).len =
          size ⟨b.start, b.len + (size b - (b.start + b.len)),
            writeAt b.buf (b.start + b.len)
              (data.take (size b - (b.start + b.len)))⟩ := by
        rw [hszb1]
        dsimp only
        omega
      rw [extend_tail_none_full hb1full]
    · have hInv1 : Inv ⟨b.start, b.len + (size b - (b.start + b.len)),
          writeAt b.buf (b.start + b.len) (data.take (size b - (b.start + b.len)))⟩ := by
        refine ⟨?_, ?_, ?_⟩
        · rw [hszb1]
          dsimp only
          omega
        · intro h0
          dsimp only at h0 ⊢
          omega
        · intro _
          rw [hszb1]
          dsimp only
          omega
      rw [extend_tail_none_of_gt hInv1 (by rw [hszb1]; dsimp only; omega)
        (by dsimp only; omega) (by dsimp only; rw [hRlen]; omega)]
  · -- wrapped span [start+len-size, start); filling it leaves the buffer full
    have hmin : min data.length (b.start - (b.start + b.len - size b)) =
        b.start - (b.start + b.len - size b) := by omega
    have htklen : (data.take (b.start - (b.start + b.len - size b))).length =
        b.start - (b.start + b.len - size b) := by
      simp only [List.length_take]
      omega
    have hWlen : (writeAt b.buf (b.start + b.len - size b)
        (data.take (b.start - (b.start + b.len - size b)))).length = b.buf.length := by
      apply length_writeAt
      rw [htklen]
      omega
    have hszb1 : size ⟨b.start, b.len + (b.start - (b.start + b.len - size b)),
        writeAt b.buf (b.start + b.len - size b)
          (data.take (b.start - (b.start + b.len - size b)))⟩ =
        b.buf.length := hWlen
    unfold extend
    rw [heq]
    dsimp only
    rw [hmin]
    rw [fill_of_le (by
      show b.len + (b.start - (b.start + b.len - size b)) ≤
        (writeAt b.buf (b.start + b.len - size b)
          (data.take (b.start - (b.start + b.len - size b)))).length
      rw [hWlen]
      omega)]
    dsimp only
    rw [if_neg (by omega)]
    have hb1full : (⟨b.start, b.len + (b.start - (b.start + b.len - size b)),
        writeAt b.buf (b.start + b.len - size b)
          (data.take (b.start - (b.start + b.len - size b)))⟩ : CircleBuffer).len =
        size ⟨b.start, b.len + (b.start - (b.start + b.len - size b)),
          writeAt b.buf (b.start + b.len - size b)
            (data.take (b.start - (b.start + b.len - size b)))⟩ := by
      rw [hszb1]
      dsimp only
      omega
    rw [extend_tail_none_full hb1full]

theorem extend_isSome_iff {b : CircleBuffer} {data : List Nat} (hInv : Inv b) :
    (extend b data).isSome ↔ (data.length ≤ available b ∧ b.len < size b) := by
  constructor
  · intro h
    have hnf : b.len < size b := by
      rcases Nat.lt_or_ge b.len (size b) with h' | h'
      · exact h'
      · rw [extend_none_full (Nat.le_antisymm hInv.1 h')] at h
        exact Bool.noConfusion h
    have hle : data.length ≤ available b := by
      by_contra hgt
      rw [extend_none_of_gt hInv (by omega)] at h
      exact Bool.noConfusion h
    exact ⟨hle, hnf⟩
  · rintro ⟨hle, hnf⟩
    obtain ⟨b', hb', _⟩ := extend_spec hInv hle hnf
    rw [hb']
    rfl

theorem inv_extend {b b' : CircleBuffer} {data : List Nat} (hInv : Inv b)
    (h : extend b data = some b') : Inv b' := by
  have hsome : (extend b data).isSome := by
    rw [h]
    rfl
  obtain ⟨hle, hnf⟩ := (extend_isSome_iff hInv).mp hsome
  obtain ⟨b2, hb2, hst, hlen, hbuf, _⟩ := extend_spec hInv hle hnf
  rw [h] at hb2
  injection hb2 with hb2
  subst hb2
  obtain ⟨h1, h2, h3⟩ := hInv
  have hsz : size b' = size b := by
    simp only [size]
    rw [hbuf]
  have hle' : data.length ≤ size b - b.len := hle
  refine ⟨?_, ?_, ?_⟩
  · rw [hlen, hsz]
    omega
  · intro h0
    rw [hlen] at h0
    rw [hst]
    exact h2 (by omega)
  · intro hp
    rw [hst, hsz, hlen] at *
    by_cases hl : 0 < b.len
    · exact h3 hl
    · have hs0 : b.start = 0 := h2 (by omega)
      rw [hlen] at hp
      omega

/-! ### The `read` and `write` adapters preserve the invariants -/

theorem inv_bufswap {b : CircleBuffer} {W : List Nat} (hInv : Inv b)
    (hW : W.length = b.buf.length) : Inv { b with buf := W } := by
  obtain ⟨h1, h2, h3⟩ := hInv
  simp only [size] at h1 h3
  refine ⟨?_, h2, ?_⟩
  · show b.len ≤ W.length
    omega
  · intro hp
    show b.start < W.length
    have := h3 hp
    omega

theorem zone_length {b : CircleBuffer} (hInv : Inv b) {lo hi : Nat}
    (h : get_fillable_area b = some (lo, hi)) :
    ((b.buf.drop lo).take (hi - lo)).length = hi - lo := by
  obtain ⟨hlh, hhs, _⟩ := gfa_bounds hInv h
  simp only [size] at hhs
  simp only [List.length_take, List.length_drop]
  omega

theorem inv_read {b b' : CircleBuffer} {res : Except Nat Nat}
    {reader : List Nat → Except Nat Nat × List Nat} (hInv : Inv b)
    (hzl : ∀ z, ((reader z).2).length = z.length)
    (h : read b reader = some (res, b')) : Inv b' := by
  unfold read at h
  split at h
  next => exact Option.noConfusion h
  next lo hi hgfa =>
    dsimp only at h
    have hzlen : ((reader ((b.buf.drop lo).take (hi - lo))).2).length = hi - lo := by
      rw [hzl]
      exact zone_length hInv hgfa
    have hblen : lo + ((reader ((b.buf.drop lo).take (hi - lo))).2).length ≤
        b.buf.length := by
      rw [hzlen]
      obtain ⟨hlh, hhs, _⟩ := gfa_bounds hInv hgfa
      simp only [size] at hhs
      omega
    have hInvW : Inv { b with buf := writeAt b.buf lo (reader ((b.buf.drop lo).take (hi - lo))).2 } :=
      inv_bufswap hInv (length_writeAt hblen)
    split at h
    next amt hok =>
      cases hfill : fill { b with buf := writeAt b.buf lo (reader ((b.buf.drop lo).take (hi - lo))).2 } amt with
      | none =>
        rw [hfill] at h
        simp at h
      | some b2 =>
        rw [hfill] at h
        simp only [Option.map_some'] at h
        injection h with h
        injection h with hres hb
        subst hb
        exact inv_fill hInvW hfill
    next e herr =>
      injection h with h
      injection h with hres hb
      subst hb
      exact hInvW

theorem inv_write {b b' : CircleBuffer} {res : Except Unit Nat} {data : List Nat}
    (hInv : Inv b) (h : write b data = some (res, b')) : Inv b' := by
  unfold write at h
  split at h
  next =>
    injection h with h
    injection h with hres hb
    subst hb
    exact hInv
  next =>
    dsimp only at h
    cases hext : extend b (data.take (min data.length (available b))) with
    | none =>
      rw [hext] at h
      exact Option.noConfusion h
    | some b2 =>
      rw [hext] at h
      simp only [Option.map_some'] at h
      injection h with h
      injection h with hres hb
      subst hb
      exact inv_extend hInv hext

/-- States reachable by the public operations satisfy the invariants. -/
theorem reachable_inv {b : CircleBuffer} (h : Reachable b) : Inv b := by
  induction h with
  | new buf => exact inv_new buf
  | step_fill _ hf ih => exact inv_fill ih hf
  | step_consume _ hc ih => exact inv_consume ih hc
  | step_clear _ ih => exact inv_clear _
  | step_extend _ he ih => exact inv_extend ih he
  | step_read _ hzl hr ih => exact inv_read ih hzl hr
  | step_write _ hw ih => exact inv_write ih hw

/-- Writing into the fillable area does not change the occupied contents. -/
theorem occupied_writeAt_free {b : CircleBuffer} {lo hi : Nat} {d : List Nat}
    (hInv : Inv b) (hgfa : get_fillable_area b = some (lo, hi))
    (hd : d.length ≤ hi - lo) :
    occupied { b with buf := writeAt b.buf lo d } = occupied b := by
  obtain ⟨h1, h2, h3⟩ := hInv
  have hLen : size b = b.buf.length := rfl
  obtain ⟨hlh, hhs, hnf⟩ := gfa_bounds ⟨h1, h2, h3⟩ hgfa
  rcases gfa_cases ⟨h1, h2, h3⟩ hnf with ⟨hc, heq⟩ | ⟨hc, hs0, hs, heq⟩ <;>
    rw [heq] at hgfa <;> injection hgfa with hgfa <;>
    injection hgfa with hlo hhi <;> subst hlo <;> subst hhi
  · -- free span [start+len, size)
    have hWlen : (writeAt b.buf (b.start + b.len) d).length = b.buf.length :=
      length_writeAt (by omega)
    have hsizeC : size { b with buf := writeAt b.buf (b.start + b.len) d } =
        b.buf.length := hWlen
    simp only [occupied, hsizeC]
    have hz : b.start + b.len - size b = 0 := by omega
    have hz' : b.start + b.len - b.buf.length = 0 := by omega
    rw [hz, hz']
    simp only [List.take_zero]
    rw [drop_writeAt_le (by omega) (by omega), Nat.add_sub_cancel_left]
    rw [List.take_append_of_le_length (by
      simp only [List.length_append, List.length_take, List.length_drop]
      omega)]
    rw [List.take_append_of_le_length (by
      simp only [List.length_take, List.length_drop]
      omega)]
    rw [List.take_take, Nat.min_self]
  · -- free span [start+len-size, start)
    have hWlen : (writeAt b.buf (b.start + b.len - size b) d).length = b.buf.length :=
      length_writeAt (by omega)
    have hsizeC : size { b with buf := writeAt b.buf (b.start + b.len - size b) d } =
        b.buf.length := hWlen
    simp only [occupied, hsizeC]
    rw [drop_writeAt (by omega) (by omega)]
    rw [take_writeAt (by omega) (by omega)]
    rfl

/-! ### Behaviour of the `read` and `write` adapters -/

theorem read_spec {b : CircleBuffer} {reader : List Nat → Except Nat Nat × List Nat}
    {res : Except Nat Nat} {b' : CircleBuffer} (hInv : Inv b)
    (hzl : ∀ z, ((reader z).2).length = z.length)
    (h : read b reader = some (res, b')) :
    ∃ lo hi, get_fillable_area b = some (lo, hi) ∧
      res = (reader ((b.buf.drop lo).take (hi - lo))).1 ∧
      (∀ amt, res = Except.ok amt → b'.start = b.start ∧ b'.len = b.len + amt) ∧
      (∀ e, res = Except.error e → b'.start = b.start ∧ b'.len = b.len ∧
        occupied b' = occupied b) := by
  unfold read at h
  split at h
  next => exact Option.noConfusion h
  next lo hi hgfa =>
    dsimp only at h
    have hzlen : ((reader ((b.buf.drop lo).take (hi - lo))).2).length = hi - lo := by
      rw [hzl]
      exact zone_length hInv hgfa
    refine ⟨lo, hi, hgfa, ?_⟩
    split at h
    next amt hok =>
      cases hfill : fill { b with buf := writeAt b.buf lo (reader ((b.buf.drop lo).take (hi - lo))).2 } amt with
      | none =>
        rw [hfill] at h
        simp at h
      | some b2 =>
        rw [hfill] at h
        simp only [Option.map_some'] at h
        injection h with h
        injection h with hres hb
        subst hb
        subst hres
        refine ⟨hok.symm, ?_, ?_⟩
        · intro amt' h'
          injection h' with h'
          subst h'
          obtain ⟨hle2, hb2⟩ := fill_eq_some hfill
          subst hb2
          exact ⟨rfl, rfl⟩
        · intro e h'
          exact Except.noConfusion h'
    next e herr =>
      injection h with h
      injection h with hres hb
      subst hb
      subst hres
      refine ⟨herr.symm, ?_, ?_⟩
      · intro amt h'
        exact Except.noConfusion h'
      · intro e' h'
        refine ⟨rfl, rfl, ?_⟩
        exact occupied_writeAt_free hInv hgfa (Nat.le_of_eq hzlen)

theorem write_spec {b : CircleBuffer} {data : List Nat} (hInv : Inv b) :
    (0 < available b →
      ∃ b', write b data = some (Except.ok (min data.length (available b)), b') ∧
        occupied b' = occupied b ++ data.take (min data.length (available b)) ∧
        b'.len = b.len + min data.length (available b) ∧ b'.start = b.start) ∧
    (available b = 0 → write b data = some (Except.error (), b)) := by
  constructor
  · intro hav
    have havd : available b = size b - b.len := rfl
    have hnf : b.len < size b := by omega
    have htl : (data.take (min data.length (available b))).length =
        min data.length (available b) := by
      simp only [List.length_take]
      omega
    obtain ⟨b', hb', hst, hlen, _, hocc⟩ :=
      @extend_spec b (data.take (min data.length (available b))) hInv
        (by rw [htl]; omega) hnf
    refine ⟨b', ?_, ?_, ?_, hst⟩
    · unfold write
      rw [if_neg (by omega)]
      dsimp only
      rw [hb']
      rfl
    · rw [hocc]
    · rw [hlen, htl]
  · intro hav
    unfold write
    rw [if_pos hav]

/-! ### The claims -/

/-- C1: for every CircleBuffer reachable from a freshly constructed buffer by
any sequence of the public operations (fill, consume, clear, extend, read,
write; the view operations do not mutate), the invariants hold after every
step: `0 ≤ len ≤ capacity`; when `len = 0`, `start = 0`; and when `len > 0`,
`0 ≤ start < capacity`. -/
theorem spec_C1 (b : CircleBuffer) (h : Reachable b) :
    b.len ≤ size b ∧ (b.len = 0 → b.start = 0) ∧ (0 < b.len → b.start < size b) :=
  reachable_inv h

theorem spec_C1_witness :
    (⟨0, 2, [7, 7, 7, 7]⟩ : CircleBuffer).len ≤ size (⟨0, 2, [7, 7, 7, 7]⟩ : CircleBuffer) ∧
    ((⟨0, 2, [7, 7, 7, 7]⟩ : CircleBuffer).len = 0 →
      (⟨0, 2, [7, 7, 7, 7]⟩ : CircleBuffer).start = 0) ∧
    (0 < (⟨0, 2, [7, 7, 7, 7]⟩ : CircleBuffer).len →
      (⟨0, 2, [7, 7, 7, 7]⟩ : CircleBuffer).start < size (⟨0, 2, [7, 7, 7, 7]⟩ : CircleBuffer)) :=
  spec_C1 ⟨0, 2, [7, 7, 7, 7]⟩
    (Reachable.step_fill (Reachable.new [7, 7, 7, 7])
      (show fill (CircleBuffer.new [7, 7, 7, 7]) 2 = some ⟨0, 2, [7, 7, 7, 7]⟩
        by decide))

/-- C2: for every buffer state satisfying the invariants and every
`amt ≤ len`, `view_parts amt` returns a pair (head, tail) whose
concatenation is exactly the first `amt` occupied bytes in logical order
starting at `start`, with tail non-empty iff `start + amt > capacity`;
for `amt > len` the operation fails. -/
theorem spec_C2 (b : CircleBuffer) (hInv : Inv b) :
    (∀ amt, amt ≤ b.len → ∃ hd tl, view_parts b amt = some (hd, tl) ∧
      hd ++ tl = (occupied b).take amt ∧ (tl ≠ [] ↔ size b < b.start + amt)) ∧
    (∀ amt, b.len < amt → view_parts b amt = none) := by
  constructor
  · intro amt hamt
    obtain ⟨hd, tl, hvp, hcat, hiff⟩ := view_parts_concat hInv hamt
    refine ⟨hd, tl, hvp, hcat, ?_⟩
    constructor
    · intro hne
      rcases Nat.lt_or_ge (size b) (b.start + amt) with h' | h'
      · exact h'
      · exact absurd (hiff.mpr h') hne
    · intro hlt hteq
      have := hiff.mp hteq
      omega
  · intro amt hamt
    exact view_parts_none hamt

theorem spec_C2_witness :
    (∀ amt, amt ≤ (⟨2, 3, [30, 31, 32, 33]⟩ : CircleBuffer).len →
      ∃ hd tl, view_parts ⟨2, 3, [30, 31, 32, 33]⟩ amt = some (hd, tl) ∧
        hd ++ tl = (occupied ⟨2, 3, [30, 31, 32, 33]⟩).take amt ∧
        (tl ≠ [] ↔ size (⟨2, 3, [30, 31, 32, 33]⟩ : CircleBuffer) <
          (⟨2, 3, [30, 31, 32, 33]⟩ : CircleBuffer).start + amt)) ∧
    (∀ amt, (⟨2, 3, [30, 31, 32, 33]⟩ : CircleBuffer).len < amt →
      view_parts ⟨2, 3, [30, 31, 32, 33]⟩ amt = none) :=
  spec_C2 ⟨2, 3, [30, 31, 32, 33]⟩ (by decide)

/-- C3: for every buffer state satisfying the invariants, `get_fillable_area`
returns none exactly when the buffer is full; otherwise it returns the free
span starting at `(start + len) % capacity` and ending at capacity or at
`start`, whichever comes first from that offset; when the buffer is empty
the span covers the full capacity starting at offset 0. -/
theorem spec_C3 (b : CircleBuffer) (hInv : Inv b) :
    (get_fillable_area b = none ↔ is_full b) ∧
    (∀ lo hi, get_fillable_area b = some (lo, hi) →
      lo = (b.start + b.len) % size b ∧ lo < hi ∧ hi ≤ size b ∧
      (lo < b.start → hi = b.start) ∧ (b.start ≤ lo → hi = size b) ∧
      (b.len = 0 → lo = 0 ∧ hi = size b)) := by
  obtain ⟨h1, h2, h3⟩ := hInv
  constructor
  · exact gfa_none_iff ⟨h1, h2, h3⟩
  · intro lo hi h
    have hnf : b.len < size b := (gfa_bounds ⟨h1, h2, h3⟩ h).2.2
    rcases gfa_cases ⟨h1, h2, h3⟩ hnf with ⟨hc, heq⟩ | ⟨hc, hs0, hs, heq⟩ <;>
      rw [heq] at h <;> injection h with h <;> injection h with hlo hhi <;>
      subst hlo <;> subst hhi
    · have hmod : (b.start + b.len) % size b = b.start + b.len := Nat.mod_eq_of_lt hc
      refine ⟨hmod.symm, hc, Nat.le_refl _, ?_, fun _ => rfl, ?_⟩
      · intro h'
        omega
      · intro h0
        have := h2 h0
        constructor <;> omega
    · have hmod : (b.start + b.len) % size b = b.start + b.len - size b :=
        mod_eq_sub_of_lt_two hc (by omega)
      refine ⟨hmod.symm, by omega, by omega, fun _ => rfl, ?_, ?_⟩
      · intro h'
        omega
      · intro h0
        have := h2 h0
        omega

theorem spec_C3_witness :
    (get_fillable_area ⟨2, 3, [30, 31, 32, 33]⟩ = none ↔
      is_full (⟨2, 3, [30, 31, 32, 33]⟩ : CircleBuffer)) ∧
    (∀ lo hi, get_fillable_area ⟨2, 3, [30, 31, 32, 33]⟩ = some (lo, hi) →
      lo = ((⟨2, 3, [30, 31, 32, 33]⟩ : CircleBuffer).start +
        (⟨2, 3, [30, 31, 32, 33]⟩ : CircleBuffer).len) %
          size (⟨2, 3, [30, 31, 32, 33]⟩ : CircleBuffer) ∧ lo < hi ∧
      hi ≤ size (⟨2, 3, [30, 31, 32, 33]⟩ : CircleBuffer) ∧
      (lo < (⟨2, 3, [30, 31, 32, 33]⟩ : CircleBuffer).start →
        hi = (⟨2, 3, [30, 31, 32, 33]⟩ : CircleBuffer).start) ∧
      ((⟨2, 3, [30, 31, 32, 33]⟩ : CircleBuffer).start ≤ lo →
        hi = size (⟨2, 3, [30, 31, 32, 33]⟩ : CircleBuffer)) ∧
      ((⟨2, 3, [30, 31, 32, 33]⟩ : CircleBuffer).len = 0 →
        lo = 0 ∧ hi = size (⟨2, 3, [30, 31, 32, 33]⟩ : CircleBuffer))) :=
  spec_C3 ⟨2, 3, [30, 31, 32, 33]⟩ (by decide)

/-- C4: round trip through `extend` — for every buffer state satisfying the
invariants and data with `data.len ≤ free_length`, after a successful
`extend data` the full occupied region read back through `view_parts`
equals the previous occupied contents followed by `data`; in particular an
append to an empty buffer reproduces `data` exactly. -/
theorem spec_C4 (b : CircleBuffer) (data : List Nat) (b' : CircleBuffer)
    (hInv : Inv b) (hle : data.length ≤ available b)
    (h : extend b data = some b') :
    ∃ hd tl, view_parts b' b'.len = some (hd, tl) ∧
      hd ++ tl = occupied b ++ data ∧ (b.len = 0 → hd ++ tl = data) := by
  have hInv' : Inv b' := inv_extend hInv h
  have hnf : b.len < size b := ((extend_isSome_iff hInv).mp (by rw [h]; rfl)).2
  obtain ⟨b2, hb2, hst, hlen, hbuf, hocc⟩ := extend_spec hInv hle hnf
  rw [h] at hb2
  injection hb2 with hb2
  subst hb2
  obtain ⟨hd, tl, hvp, hcat, _⟩ := view_parts_concat hInv' (Nat.le_refl _)
  have htk : (occupied b').take b'.len = occupied b' :=
    List.take_of_length_le (occupied_length hInv').le
  refine ⟨hd, tl, hvp, ?_, ?_⟩
  · rw [hcat, htk]
    exact hocc
  · intro h0
    rw [hcat, htk, hocc]
    have hnil : occupied b = [] := by
      have hol := occupied_length hInv
      rw [h0] at hol
      exact List.eq_nil_of_length_eq_zero hol
    rw [hnil, List.nil_append]

theorem spec_C4_witness :
    ∃ hd tl, view_parts ⟨2, 4, [20, 21, 12, 13]⟩
        (⟨2, 4, [20, 21, 12, 13]⟩ : CircleBuffer).len = some (hd, tl) ∧
      hd ++ tl = occupied ⟨2, 2, [10, 11, 12, 13]⟩ ++ [20, 21] ∧
      ((⟨2, 2, [10, 11, 12, 13]⟩ : CircleBuffer).len = 0 → hd ++ tl = [20, 21]) :=
  spec_C4 ⟨2, 2, [10, 11, 12, 13]⟩ [20, 21] ⟨2, 4, [20, 21, 12, 13]⟩
    (by decide) (by decide) (by decide)

/-- C5: for every buffer state satisfying the invariants and `amt ≤ len`,
`consume amt` succeeds, decreases `len` by `amt`, sets `start` to
`(start + amt) % capacity` except that it resets `start` to 0 when the
resulting length is 0, and leaves the backing bytes unchanged. -/
theorem spec_C5 (b : CircleBuffer) (amt : Nat) (hInv : Inv b) (hle : amt ≤ b.len) :
    ∃ b', consume b amt = some b' ∧ b'.len = b.len - amt ∧
      b'.start = (if b.len - amt = 0 then 0 else (b.start + amt) % size b) ∧
      b'.buf = b.buf :=
  ⟨_, consume_eq_some hInv hle, rfl, rfl, rfl⟩

theorem spec_C5_witness :
    ∃ b', consume ⟨1, 2, [5, 6, 7]⟩ 1 = some b' ∧
      b'.len = (⟨1, 2, [5, 6, 7]⟩ : CircleBuffer).len - 1 ∧
      b'.start = (if (⟨1, 2, [5, 6, 7]⟩ : CircleBuffer).len - 1 = 0 then 0
        else ((⟨1, 2, [5, 6, 7]⟩ : CircleBuffer).start + 1) %
          size (⟨1, 2, [5, 6, 7]⟩ : CircleBuffer)) ∧
      b'.buf = (⟨1, 2, [5, 6, 7]⟩ : CircleBuffer).buf :=
  spec_C5 ⟨1, 2, [5, 6, 7]⟩ 1 (by decide) (by decide)

/-- C6: `fill amt` fails exactly when `len + amt` would exceed the capacity
and otherwise increases `len` by exactly `amt`; `consume amt` fails exactly
when `amt > len` and otherwise decreases `len` by exactly `amt`; the amount
is never clamped. -/
theorem spec_C6 (b : CircleBuffer) (amt : Nat) (hInv : Inv b) :
    ((fill b amt).isSome ↔ b.len + amt ≤ size b) ∧
    (∀ b', fill b amt = some b' → b'.len = b.len + amt) ∧
    ((consume b amt).isSome ↔ amt ≤ b.len) ∧
    (∀ b', consume b amt = some b' → b'.len + amt = b.len) := by
  refine ⟨⟨?_, ?_⟩, ?_, ⟨?_, ?_⟩, ?_⟩
  · intro h
    cases hf : fill b amt with
    | none =>
      rw [hf] at h
      exact Bool.noConfusion h
    | some b' => exact (fill_eq_some hf).1
  · intro h
    rw [fill_of_le h]
    rfl
  · intro b' h
    rw [(fill_eq_some h).2]
  · intro h
    by_contra hgt
    rw [consume_eq_none (by omega)] at h
    exact Bool.noConfusion h
  · intro h
    rw [consume_eq_some hInv h]
    rfl
  · intro b' h
    have hle : amt ≤ b.len := by
      by_contra hgt
      rw [consume_eq_none (by omega)] at h
      exact Option.noConfusion h
    rw [consume_eq_some hInv hle] at h
    injection h with h
    subst h
    dsimp only
    omega

theorem spec_C6_witness :
    ((fill ⟨0, 1, [9, 9]⟩ 1).isSome ↔
      (⟨0, 1, [9, 9]⟩ : CircleBuffer).len + 1 ≤ size (⟨0, 1, [9, 9]⟩ : CircleBuffer)) ∧
    (∀ b', fill ⟨0, 1, [9, 9]⟩ 1 = some b' →
      b'.len = (⟨0, 1, [9, 9]⟩ : CircleBuffer).len + 1) ∧
    ((consume ⟨0, 1, [9, 9]⟩ 1).isSome ↔ 1 ≤ (⟨0, 1, [9, 9]⟩ : CircleBuffer).len) ∧
    (∀ b', consume ⟨0, 1, [9, 9]⟩ 1 = some b' →
      b'.len + 1 = (⟨0, 1, [9, 9]⟩ : CircleBuffer).len) :=
  spec_C6 ⟨0, 1, [9, 9]⟩ 1 (by decide)

/-- C7 as stated is false: on a full buffer `extend` panics at the initial
`get_fillable_area().unwrap()` even for empty data, although
`data.len() = 0 ≤ free_length() = 0`. -/
theorem spec_C7_counterexample :
    Inv ⟨0, 1, [42]⟩ ∧ List.length ([] : List Nat) ≤ available ⟨0, 1, [42]⟩ ∧
    extend ⟨0, 1, [42]⟩ [] = none := by decide

/-- C7 (amended): `extend data` succeeds exactly when `data.len ≤ free_length`
and the buffer is not full; on a full buffer it fails fatally even for empty
data, and it fails fatally whenever `data.len > free_length`. -/
theorem spec_C7 (b : CircleBuffer) (data : List Nat) (hInv : Inv b) :
    (extend b data).isSome ↔ (data.length ≤ available b ∧ ¬ is_full b) := by
  rw [extend_isSome_iff hInv]
  have h1 := hInv.1
  unfold is_full
  constructor
  · rintro ⟨ha, hb⟩
    exact ⟨ha, by omega⟩
  · rintro ⟨ha, hb⟩
    exact ⟨ha, by omega⟩

theorem spec_C7_witness :
    ((extend ⟨0, 1, [4, 5, 6]⟩ [8]).isSome ↔
      (List.length [8] ≤ available ⟨0, 1, [4, 5, 6]⟩ ∧
        ¬ is_full (⟨0, 1, [4, 5, 6]⟩ : CircleBuffer))) :=
  spec_C7 ⟨0, 1, [4, 5, 6]⟩ [8] (by decide)

/-- C8: a capacity-0 buffer is simultaneously empty and full,
`get_fillable_area` returns none, and nonzero `fill`/`consume` fail;
moreover every `%`-site divisor is positive whenever the operation reaches
it under the invariants, so no modulo by zero is ever computed. -/
theorem spec_C8 :
    (∀ b : CircleBuffer, size b = 0 → Inv b →
      is_empty b ∧ is_full b ∧ get_fillable_area b = none ∧
      (∀ amt, 0 < amt → fill b amt = none ∧ consume b amt = none)) ∧
    (∀ b : CircleBuffer, Inv b → b.len ≠ size b → 0 < size b) ∧
    (∀ b : CircleBuffer, ∀ amt, Inv b → amt ≤ b.len → b.len - amt ≠ 0 →
      0 < size b) ∧
    (∀ b : CircleBuffer, ∀ amt, Inv b → amt ≤ b.len → size b < b.start + amt →
      0 < size b) := by
  refine ⟨?_, ?_, ?_, ?_⟩
  · intro b hsz hInv
    obtain ⟨h1, h2, h3⟩ := hInv
    have hl : b.len = 0 := by omega
    have hful : b.len = size b := by omega
    refine ⟨hl, hful, by simp [get_fillable_area, hful], ?_⟩
    intro amt hamt
    exact ⟨fill_eq_none (by omega), consume_eq_none (by omega)⟩
  · intro b hInv hne
    have := hInv.1
    omega
  · intro b amt hInv hle hne
    have := hInv.2.2 (by omega)
    omega
  · intro b amt hInv hle hgt
    rcases Nat.eq_zero_or_pos (size b) with h0 | h0
    · have h1 := hInv.1
      have hl : b.len = 0 := by omega
      have := hInv.2.1 hl
      omega
    · exact h0

theorem spec_C8_witness :
    is_empty (CircleBuffer.new []) ∧ is_full (CircleBuffer.new []) ∧
    get_fillable_area (CircleBuffer.new []) = none ∧
    (∀ amt, 0 < amt → fill (CircleBuffer.new []) amt = none ∧
      consume (CircleBuffer.new []) amt = none) :=
  spec_C8.1 (CircleBuffer.new []) rfl (by decide)

/-- C9: for a buffer with free space, `read reader` reports the very result
the reader returned; on success `fill` was applied with exactly the number
of bytes the reader reported (so `len` grows by exactly that amount), and
on a reported failure `start`, `len` and the occupied contents are exactly
as before the call. -/
theorem spec_C9 (b : CircleBuffer) (reader : List Nat → Except Nat Nat × List Nat)
    (res : Except Nat Nat) (b' : CircleBuffer) (hInv : Inv b) (_hnf : ¬ is_full b)
    (hzl : ∀ z, ((reader z).2).length = z.length)
    (h : read b reader = some (res, b')) :
    ∃ lo hi, get_fillable_area b = some (lo, hi) ∧
      res = (reader ((b.buf.drop lo).take (hi - lo))).1 ∧
      (∀ amt, res = Except.ok amt → b'.start = b.start ∧ b'.len = b.len + amt) ∧
      (∀ e, res = Except.error e → b'.start = b.start ∧ b'.len = b.len ∧
        occupied b' = occupied b) :=
  read_spec hInv hzl h

theorem spec_C9_witness :
    ∃ lo hi, get_fillable_area ⟨0, 1, [3, 0]⟩ = some (lo, hi) ∧
      (Except.error 5 : Except Nat Nat) =
        ((fun z => (Except.error 5, z) :
          List Nat → Except Nat Nat × List Nat)
            (((⟨0, 1, [3, 0]⟩ : CircleBuffer).buf.drop lo).take (hi - lo))).1 ∧
      (∀ amt, (Except.error 5 : Except Nat Nat) = Except.ok amt →
        (⟨0, 1, [3, 0]⟩ : CircleBuffer).start = (⟨0, 1, [3, 0]⟩ : CircleBuffer).start ∧
        (⟨0, 1, [3, 0]⟩ : CircleBuffer).len = (⟨0, 1, [3, 0]⟩ : CircleBuffer).len + amt) ∧
      (∀ e, (Except.error 5 : Except Nat Nat) = Except.error e →
        (⟨0, 1, [3, 0]⟩ : CircleBuffer).start = (⟨0, 1, [3, 0]⟩ : CircleBuffer).start ∧
        (⟨0, 1, [3, 0]⟩ : CircleBuffer).len = (⟨0, 1, [3, 0]⟩ : CircleBuffer).len ∧
        occupied ⟨0, 1, [3, 0]⟩ = occupied ⟨0, 1, [3, 0]⟩) :=
  spec_C9 ⟨0, 1, [3, 0]⟩ (fun z => (Except.error 5, z)) (Except.error 5)
    ⟨0, 1, [3, 0]⟩ (by decide) (by decide) (fun z => rfl) rfl

/-- C10: the `std::io::Write` implementation clamps rather than failing —
with free space available, `write data` appends exactly the first
`min(data.len, available)` bytes and returns Ok of that count; it errors
only when `available = 0`, leaving the state untouched. -/
theorem spec_C10 (b : CircleBuffer) (data : List Nat) (hInv : Inv b) :
    (0 < available b →
      ∃ b', write b data = some (Except.ok (min data.length (available b)), b') ∧
        occupied b' = occupied b ++ data.take (min data.length (available b)) ∧
        b'.len = b.len + min data.length (available b) ∧ b'.start = b.start) ∧
    (available b = 0 → write b data = some (Except.error (), b)) :=
  write_spec hInv

theorem spec_C10_witness :
    (0 < available ⟨0, 1, [3, 0]⟩ →
      ∃ b', write ⟨0, 1, [3, 0]⟩ [8, 9] =
          some (Except.ok (min (List.length [8, 9]) (available ⟨0, 1, [3, 0]⟩)), b') ∧
        occupied b' = occupied ⟨0, 1, [3, 0]⟩ ++
          [8, 9].take (min (List.length [8, 9]) (available ⟨0, 1, [3, 0]⟩)) ∧
        b'.len = (⟨0, 1, [3, 0]⟩ : CircleBuffer).len +
          min (List.length [8, 9]) (available ⟨0, 1, [3, 0]⟩) ∧
        b'.start = (⟨0, 1, [3, 0]⟩ : CircleBuffer).start) ∧
    (available ⟨0, 1, [3, 0]⟩ = 0 →
      write ⟨0, 1, [3, 0]⟩ [8, 9] = some (Except.error (), ⟨0, 1, [3, 0]⟩)) :=
  spec_C10 ⟨0, 1, [3, 0]⟩ [8, 9] (by decide)

end JCircle
